import Mathlib

/-!
Verification of the SubRip subtitle splitter (`main.py`).

Strings are embedded as `List Char`.  Python exceptions are embedded as
`Option` (`none` = the call raises).  Python `float` (IEEE-754 binary64)
arithmetic inside `split_timecode` is embedded exactly: every operation's
true rational result is rounded to 53 significant bits, round to nearest,
ties to even (`roundDouble`), with unbounded exponent — this coincides with
binary64 everywhere outside overflow/subnormal magnitudes, which no value
in these claims reaches.  Python's truncating conversions are rendered as
`Int.floor` (the values floored are non-negative wherever the claims
evaluate them, where truncation and floor agree).
-/

namespace Subtitles

/-- Strings are modelled as lists of characters. -/
abbrev Str := List Char

/-- Whitespace test used by Python's argument-less `str.split()`. -/
def pyIsSpace (c : Char) : Bool :=
  c = ' ' || c = '\t' || c = '\n' || c = '\r' || c = '\x0b' || c = '\x0c'

/-- The decimal digit characters, as produced when rendering numbers. -/
def digitChar (d : ℕ) : Char :=
  match d with
  | 0 => '0' | 1 => '1' | 2 => '2' | 3 => '3' | 4 => '4'
  | 5 => '5' | 6 => '6' | 7 => '7' | 8 => '8' | _ => '9'

/-- Decimal value of a digit character; `none` on a non-digit.  Embeds the
digit handling of Python `int()` on the digit-only strings this program
produces and consumes (sign/whitespace tolerance of `int()` is not needed
by any block the program parses successfully in the claims). -/
def digitVal (c : Char) : Option ℕ :=
  if '0' ≤ c && c ≤ '9' then some (c.toNat - 48) else none

/-- Python `s.split(sep)` for a single-character separator: worker with an
accumulator holding the (reversed) current piece. -/
def splitCharGo (sep : Char) : Str → Str → List Str
  | cur, [] => [cur.reverse]
  | cur, c :: rest =>
    if c = sep then cur.reverse :: splitCharGo sep [] rest
    else splitCharGo sep (c :: cur) rest

/-- Python `s.split(sep)` for a single-character separator. -/
def splitChar (sep : Char) (s : Str) : List Str := splitCharGo sep [] s

/-- Leftmost occurrence of `sep` in `s`: `some (before, after)` where
`s = before ++ sep ++ after` and `before` holds no earlier occurrence. -/
def findSep (sep : Str) : Str → Option (Str × Str)
  | [] => none
  | c :: rest =>
    if sep.isPrefixOf (c :: rest) then some ([], (c :: rest).drop sep.length)
    else (findSep sep rest).map (fun p => (c :: p.1, p.2))

/-- Python two-target unpacking `a, b = s.split(sep)`: succeeds exactly when
`sep` occurs exactly once (otherwise the unpacking raises `ValueError`). -/
def split2 (sep : Str) (s : Str) : Option (Str × Str) :=
  match findSep sep s with
  | none => none
  | some (a, b) =>
    match findSep sep b with
    | none => some (a, b)
    | some _ => none

/-- Fuelled worker for Python `s.split(sep)` with a multi-character
separator; fuel `s.length` always suffices since each found separator is
non-empty. -/
def pySplitF (sep : Str) : ℕ → Str → List Str
  | 0, s => [s]
  | fuel + 1, s =>
    match findSep sep s with
    | none => [s]
    | some (a, b) => a :: pySplitF sep fuel b

/-- Python `s.split(sep)` for a non-empty separator string. -/
def pySplit (sep : Str) (s : Str) : List Str := pySplitF sep s.length s

/-- Fuelled worker for `re.split(r'\n\n+', s)`: after the two matched
newlines the regex greedily consumes every further newline. -/
def reSplitNNF : ℕ → Str → List Str
  | 0, s => [s]
  | fuel + 1, s =>
    match findSep ['\n', '\n'] s with
    | none => [s]
    | some (a, b) => a :: reSplitNNF fuel (b.dropWhile (· = '\n'))

/-- `re.split(r'\n\n+', s)`, which cuts the file content into raw blocks. -/
def reSplitNN (s : Str) : List Str := reSplitNNF s.length s

/-- Worker for whitespace splitting (Python argument-less `str.split()`);
the accumulator holds the current word reversed. -/
def pySplitWsGo : Str → Str → List Str
  | cur, [] => if cur = [] then [] else [cur.reverse]
  | cur, c :: rest =>
    if pyIsSpace c then
      if cur = [] then pySplitWsGo [] rest
      else cur.reverse :: pySplitWsGo [] rest
    else pySplitWsGo (c :: cur) rest

/-- Python argument-less `str.split()`: words of a line, whitespace runs
discarded, no empty words. -/
def pySplitWs (s : Str) : List Str := pySplitWsGo [] s

/-- Python `sep.join(pieces)`. -/
def joinSep (sep : Str) : List Str → Str
  | [] => []
  | [x] => x
  | x :: xs => x ++ sep ++ joinSep sep xs

/-- Python `s.replace(old, new)` (non-overlapping, left to right). -/
def pyReplace (old new s : Str) : Str := joinSep new (pySplit old s)

/-- Little-endian base-10 digits, fuelled (fuel `n` suffices). -/
def natDigitsF : ℕ → ℕ → List ℕ
  | 0, _ => []
  | fuel + 1, n => if n = 0 then [] else n % 10 :: natDigitsF fuel (n / 10)

/-- Little-endian base-10 digits of `n` (empty for `0`). -/
def natDigits (n : ℕ) : List ℕ := natDigitsF n n

/-- Decimal rendering of a natural number, as Python `str`/`format`. -/
def renderNat (n : ℕ) : Str :=
  if n = 0 then ['0'] else (natDigits n).reverse.map digitChar

/-- Zero-pad on the left to width `w` (Python's `0`-fill for `d` format). -/
def padZero (w : ℕ) (s : Str) : Str := List.replicate (w - s.length) '0' ++ s

/-- Python `f"{n:0wd}"` for an integer: zero-filled to minimum width `w`,
the sign preceding the fill. -/
def renderIntPad (w : ℕ) (n : ℤ) : Str :=
  if n < 0 then '-' :: padZero (w - 1) (renderNat n.natAbs)
  else padZero w (renderNat n.toNat)

/-- Python `%` on rationals (result has the sign of the divisor): the
arithmetic meaning of `a % b` for the positive divisors used here. -/
def fmod (a b : ℚ) : ℚ := a - b * ⌊a / b⌋

/-- Fuelled bit length of a natural number (fuel `n` suffices). -/
def natBitsF : ℕ → ℕ → ℕ
  | 0, _ => 0
  | fuel + 1, n => if n = 0 then 0 else natBitsF fuel (n / 2) + 1

/-- Bit length: the least `k` with `n < 2 ^ k`. -/
def natBits (n : ℕ) : ℕ := natBitsF n n

/-- Binary exponent of a positive rational: the `z` with `2^z ≤ m < 2^(z+1)`,
located from the bit lengths of numerator and denominator. -/
def expDouble (m : ℚ) : ℤ :=
  let z0 : ℤ := (natBits m.num.toNat : ℤ) - (natBits m.den : ℤ)
  if (2 : ℚ) ^ z0 ≤ m then z0 else z0 - 1

/-- Rounding of a positive rational to 53 significant bits, round to
nearest, ties to even: the scaled significand is the nearest integer in
`[2^52, 2^53]` to `m / 2^(z-52)`. -/
def roundPos (m : ℚ) : ℚ :=
  let z : ℤ := expDouble m
  let x : ℚ := m * (2 : ℚ) ^ (52 - z)
  let n0 : ℤ := ⌊x⌋
  let frac : ℚ := x - (n0 : ℚ)
  let n1 : ℤ :=
    if frac < 1 / 2 then n0
    else if 1 / 2 < frac then n0 + 1
    else if n0 % 2 = 0 then n0 else n0 + 1
  (n1 : ℚ) * (2 : ℚ) ^ (z - 52)

/-- IEEE-754 binary64 rounding of an exact rational (round to nearest,
ties to even, unbounded exponent): the value of a Python `float` holding
the result of an operation whose exact value is `q`, for all magnitudes
outside overflow and subnormal ranges. -/
def roundDouble (q : ℚ) : ℚ :=
  if q = 0 then 0 else if q < 0 then -roundPos (-q) else roundPos q

/-- `convert_to_str` from `main.py`: renders a millisecond count as
`HH:MM:SS,mmm`; hours at least two digits, unbounded width.  The Python
function receives a `float` inside the pipeline; the argument is the exact
rational it stands for, with `int()`/`//` becoming `Int.floor`. -/
def convert_to_str (ms : ℚ) : Str :=
  renderIntPad 2 ⌊ms / 3600000⌋
    ++ ':' :: (renderIntPad 2 ⌊fmod ms 3600000 / 60000⌋
    ++ ':' :: (renderIntPad 2 ⌊fmod ms 60000 / 1000⌋
    ++ ',' :: renderIntPad 3 ⌊fmod ms 1000⌋))

/-- One step of decimal accumulation while parsing a digit string. -/
def pstep (acc : Option ℕ) (c : Char) : Option ℕ :=
  match acc, digitVal c with
  | some a, some d => some (a * 10 + d)
  | _, _ => none

/-- Digit-string to number; `none` when empty or any character is not a
digit (Python `int()` raising `ValueError`). -/
def parseNat (s : Str) : Option ℕ :=
  match s with
  | [] => none
  | _ => s.foldl pstep (some 0)

/-- `convert_to_ms` from `main.py`: `h, m, s = time_str.split(':')` then
`s, ms = s.split(',')`; `none` models the `ValueError` raised when the
unpacking or `int()` fails. -/
def convert_to_ms (timeStr : Str) : Option ℕ :=
  match splitChar ':' timeStr with
  | [h, m, sPart] =>
    match splitChar ',' sPart with
    | [s, msPart] =>
      match parseNat h, parseNat m, parseNat s, parseNat msPart with
      | some hv, some mv, some sv, some msv =>
        some (hv * 3600000 + mv * 60000 + sv * 1000 + msv)
      | _, _, _, _ => none
    | _ => none
  | _ => none

/-- The SubRip separator token placed between start and end timecodes. -/
def sepArrow : Str := [' ', '-', '-', '>', ' ']

/-- The two-newline separator placed between emitted sub-blocks. -/
def nnSep : Str := ['\n', '\n']

/-- The first half of `split_timecode`:
`start, end = timecode.split(' --> ')` followed by `convert_to_ms` on each
side; `none` models the `ValueError` either step raises. -/
def parseTimecodePair (timecode : Str) : Option (ℕ × ℕ) :=
  match split2 sepArrow timecode with
  | none => none
  | some (a, b) =>
    match convert_to_ms a, convert_to_ms b with
    | some s, some e => some (s, e)
    | _, _ => none

/-- `split_timecode` from `main.py`: parses the two endpoints, divides the
duration by `numSplits` (`none` models the `ZeroDivisionError` when
`numSplits = 0`) and renders the `numSplits` sub-intervals.  The float
arithmetic is embedded operation by operation: `(end_ms - start_ms) /
num_splits` is the correctly rounded double of the exact quotient, and
each boundary `start_ms + i * duration_per_split` converts the integers to
doubles and rounds the product and the sum, exactly as Python evaluates
`int / int`, `int * float` and `int + float`. -/
def split_timecode (timecode : Str) (numSplits : ℕ) : Option (List Str) :=
  match parseTimecodePair timecode with
  | none => none
  | some (s, e) =>
    if numSplits = 0 then none
    else
      let d : ℚ := roundDouble (((e : ℚ) - (s : ℚ)) / (numSplits : ℚ))
      some ((List.range numSplits).map fun i : ℕ =>
        convert_to_str (roundDouble (roundDouble (s : ℚ)
            + roundDouble (roundDouble (i : ℚ) * d))) ++ sepArrow
          ++ convert_to_str (roundDouble (roundDouble (s : ℚ)
            + roundDouble (roundDouble ((i : ℚ) + 1) * d))))

/-- Worker for `split_line`: `cur` is `current_line`, the remaining words
are consumed greedily; the space is counted in the budget even when `cur`
is empty, exactly as `len(current_line + ' ' + word)` does. -/
def splitLineGo (maxLength : ℕ) : Str → List Str → List Str
  | cur, [] => if cur = [] then [] else [cur]
  | cur, w :: ws =>
    if cur.length + 1 + w.length ≤ maxLength then
      splitLineGo maxLength (if cur = [] then w else cur ++ ' ' :: w) ws
    else
      cur :: splitLineGo maxLength w ws

/-- `split_line` from `main.py`: greedy word wrap of one text line. -/
def split_line (line : Str) (maxLength : ℕ) : List Str :=
  splitLineGo maxLength [] (pySplitWs line)

/-- Python `str.isdigit()`: non-empty and every character a digit. -/
def pyIsDigit (s : Str) : Bool := !s.isEmpty && s.all fun c => (digitVal c).isSome

/-- The first step of `process_block`: drop the leading line when it is
purely numeric (`lines[0].isdigit()`). -/
def dropIndex (ls : List Str) : List Str :=
  match ls with
  | [] => []
  | l :: rest => if pyIsDigit l then rest else l :: rest

/-- The cheap structural check `' --> ' in timecode`. -/
def hasArrow (timecode : Str) : Bool := (findSep sepArrow timecode).isSome

/-- `process_block` from `main.py`.  Returns the joined processed block and
its line count; `some ([], 0)` is the invalid-block result `('', 0)`;
`none` models an exception escaping (`ValueError` from timecode parsing or
`ZeroDivisionError` when zero lines remain after wrapping). -/
def process_block (block : Str) (maxLength : ℕ) : Option (Str × ℕ) :=
  match dropIndex (splitChar '\n' block) with
  | timecode :: textLine :: textRest =>
    if hasArrow timecode then
      let flat := ((textLine :: textRest).map (fun l => split_line l maxLength)).flatten
      match split_timecode timecode flat.length with
      | none => none
      | some tcs =>
        some (joinSep nnSep (List.zipWith (fun t l => t ++ '\n' :: l) tcs flat),
          flat.length)
    else some ([], 0)
  | _ => some ([], 0)

/-- Sequential numbering of emitted sub-blocks starting at `n`, as the
inner writing loop of `main` does with `subtitle_number`. -/
def numberFrom : ℕ → List Str → List (ℕ × Str)
  | _, [] => []
  | n, p :: ps => (n, p) :: numberFrom (n + 1) ps

/-- The block loop of `main`: processes raw blocks in order, splits each
non-empty processed block back on `'\n\n'`, numbers the pieces with the
running counter and collects the `(index, piece)` emissions.  The final
component is `false` when an exception aborted the loop (the enclosing
`try`/`except` catches it after the already-written output); the middle
component is the counter value reached. -/
def mainLoop (maxLength : ℕ) : List Str → ℕ → List (ℕ × Str) × ℕ × Bool
  | [], n => ([], n, true)
  | b :: bs, n =>
    match process_block b maxLength with
    | none => ([], n, false)
    | some (pb, _) =>
      if pb = [] then mainLoop maxLength bs n
      else
        let pieces := pySplit nnSep pb
        let r := mainLoop maxLength bs (n + pieces.length)
        (numberFrom n pieces ++ r.1, r.2)

/-- One written record `f"{subtitle_number}\n{line}\n\n"`. -/
def emitRender (e : ℕ × Str) : Str := renderNat e.1 ++ '\n' :: (e.2 ++ ['\n', '\n'])

/-- The file-level pipeline on decoded content: normalize line endings,
split into raw blocks on blank lines, run the block loop from counter 1. -/
def processFile (content : Str) (maxLength : ℕ) : List (ℕ × Str) × ℕ × Bool :=
  mainLoop maxLength (reSplitNN (pyReplace ['\r', '\n'] ['\n'] content)) 1

/-- The bytes of block content written to the output file (the encoder's
BOM aside). -/
def renderOutput (emissions : List (ℕ × Str)) : Str :=
  (emissions.map emitRender).flatten

/-- Wrapped-line count a raw block contributes: the line count returned by
`process_block` when the block is valid, `0` otherwise. -/
def wrappedCount (b : Str) (maxLength : ℕ) : ℕ :=
  match process_block b maxLength with
  | some (_, k) => k
  | none => 0

/-- The sub-block pieces a raw block contributes to the output. -/
def piecesOf (b : Str) (maxLength : ℕ) : List Str :=
  match process_block b maxLength with
  | some (pb, _) => if pb = [] then [] else pySplit nnSep pb
  | none => []

/-- Start of the `i`-th emitted sub-interval, re-parsed to milliseconds. -/
def subStartMs (subs : List Str) (i : ℕ) : Option ℕ :=
  (subs.get? i).bind fun u => (parseTimecodePair u).map Prod.fst

/-- The shape of every emitted sub-block record: a non-empty timecode line
without newlines, one newline, then a wrapped text line without newlines. -/
def GoodEntry (x : Str) : Prop :=
  ∃ t w, x = t ++ '\n' :: w ∧ t ≠ [] ∧ '\n' ∉ t ∧ '\n' ∉ w

/-- End of the `i`-th emitted sub-interval, re-parsed to milliseconds. -/
def subEndMs (subs : List Str) (i : ℕ) : Option ℕ :=
  (subs.get? i).bind fun u => (parseTimecodePair u).map Prod.snd

/-! ### Decimal rendering and parsing: round trip -/

theorem natDigitsF_mono : ∀ f₁ : ℕ, ∀ f₂ n : ℕ, n ≤ f₁ → n ≤ f₂ →
    natDigitsF f₁ n = natDigitsF f₂ n := by
  intro f₁
  induction f₁ with
  | zero =>
    intro f₂ n h₁ h₂
    interval_cases n
    cases f₂ <;> simp [natDigitsF]
  | succ f ih =>
    intro f₂ n h₁ h₂
    match f₂, n with
    | 0, n =>
      interval_cases n
      simp [natDigitsF]
    | g + 1, 0 => simp [natDigitsF]
    | g + 1, n + 1 =>
      simp only [natDigitsF, if_neg (Nat.succ_ne_zero n)]
      have := ih g ((n + 1) / 10) (by omega) (by omega)
      rw [this]

theorem natDigits_eq (n : ℕ) :
    natDigits n = if n = 0 then [] else n % 10 :: natDigits (n / 10) := by
  cases n with
  | zero => rfl
  | succ m =>
    simp only [if_neg (Nat.succ_ne_zero m)]
    show natDigitsF (m + 1) (m + 1) = _
    simp only [natDigitsF, if_neg (Nat.succ_ne_zero m)]
    rw [natDigitsF_mono m ((m + 1) / 10) ((m + 1) / 10) (by omega) (by omega)]
    rfl

theorem natDigits_lt_ten (n : ℕ) : ∀ d ∈ natDigits n, d < 10 := by
  induction n using Nat.strong_induction_on with
  | _ n ih =>
    intro d hd
    rw [natDigits_eq] at hd
    by_cases h : n = 0
    · simp [h] at hd
    · simp only [if_neg h, List.mem_cons] at hd
      rcases hd with h1 | h1
      · omega
      · exact ih (n / 10) (by omega) d h1

theorem natDigits_ne_nil (n : ℕ) (h : n ≠ 0) : natDigits n ≠ [] := by
  rw [natDigits_eq, if_neg h]
  simp

theorem renderNat_ne_nil (n : ℕ) : renderNat n ≠ [] := by
  unfold renderNat
  by_cases h : n = 0
  · simp [h]
  · simp only [if_neg h]
    intro hc
    exact natDigits_ne_nil n h (by simpa using hc)

theorem digitVal_digitChar (d : ℕ) (h : d < 10) : digitVal (digitChar d) = some d := by
  interval_cases d <;> decide

theorem pstep_digit (a d : ℕ) (h : d < 10) :
    pstep (some a) (digitChar d) = some (a * 10 + d) := by
  unfold pstep
  rw [digitVal_digitChar d h]

theorem foldl_pstep_digits (n : ℕ) : ∀ a : ℕ,
    ((natDigits n).reverse.map digitChar).foldl pstep (some a) =
      some (a * 10 ^ (natDigits n).length + n) := by
  induction n using Nat.strong_induction_on with
  | _ n ih =>
    intro a
    by_cases h : n = 0
    · subst h
      simp [natDigits_eq]
    · rw [natDigits_eq, if_neg h]
      simp only [List.reverse_cons, List.map_append, List.foldl_append, List.length_cons,
        List.map_cons, List.map_nil, List.foldl_cons, List.foldl_nil]
      rw [ih (n / 10) (by omega) a, pstep_digit _ _ (by omega : n % 10 < 10)]
      congr 1
      rw [pow_succ]
      set b : ℕ := 10 ^ (natDigits (n / 10)).length with hb
      have hdm := Nat.div_add_mod n 10
      have h1 : (a * b + n / 10) * 10 + n % 10 = a * b * 10 + (10 * (n / 10) + n % 10) := by
        ring
      rw [h1, hdm]
      ring

theorem parseNat_cons (c : Char) (s : Str) :
    parseNat (c :: s) = (c :: s).foldl pstep (some 0) := rfl

theorem parseNat_pad_render (w n : ℕ) : parseNat (padZero w (renderNat n)) = some n := by
  have hne : renderNat n ≠ [] := renderNat_ne_nil n
  unfold padZero
  set k := w - (renderNat n).length with hk
  have hfold : (List.replicate k '0' ++ renderNat n).foldl pstep (some 0) = some n := by
    rw [List.foldl_append]
    have hz : ∀ j : ℕ, (List.replicate j '0').foldl pstep (some 0) = some 0 := by
      intro j
      induction j with
      | zero => rfl
      | succ m ihm => simpa [List.replicate_succ, pstep, digitVal] using ihm
    rw [hz k]
    by_cases h : n = 0
    · subst h
      rfl
    · unfold renderNat
      rw [if_neg h, foldl_pstep_digits n 0]
      simp
  rcases hcons : List.replicate k '0' ++ renderNat n with _ | ⟨c, rest⟩
  · exact absurd (List.append_eq_nil.mp hcons).2 hne
  · rw [← hcons, ← hfold]
    rw [hcons]
    exact parseNat_cons c rest

/-! ### Characters of rendered numbers and timecodes -/

theorem mem_renderNat (n : ℕ) (c : Char) (hc : c ∈ renderNat n) :
    ∃ d, d < 10 ∧ c = digitChar d := by
  unfold renderNat at hc
  by_cases h : n = 0
  · rw [if_pos h] at hc
    simp at hc
    exact ⟨0, by omega, hc⟩
  · rw [if_neg h] at hc
    rcases List.mem_map.mp hc with ⟨d, hd, hdc⟩
    exact ⟨d, natDigits_lt_ten n d (List.mem_reverse.mp hd), hdc.symm⟩

theorem mem_padZero (w : ℕ) (s : Str) (c : Char) (hc : c ∈ padZero w s) :
    c = '0' ∨ c ∈ s := by
  unfold padZero at hc
  rcases List.mem_append.mp hc with h | h
  · exact Or.inl (List.eq_of_mem_replicate h)
  · exact Or.inr h

theorem mem_renderIntPad (w : ℕ) (z : ℤ) (c : Char) (hc : c ∈ renderIntPad w z) :
    c = '-' ∨ ∃ d, d < 10 ∧ c = digitChar d := by
  unfold renderIntPad at hc
  by_cases h : z < 0
  · rw [if_pos h] at hc
    rcases List.mem_cons.mp hc with h1 | h1
    · exact Or.inl h1
    · rcases mem_padZero _ _ _ h1 with h2 | h2
      · exact Or.inr ⟨0, by omega, h2⟩
      · exact Or.inr (mem_renderNat _ _ h2)
  · rw [if_neg h] at hc
    rcases mem_padZero _ _ _ hc with h2 | h2
    · exact Or.inr ⟨0, by omega, h2⟩
    · exact Or.inr (mem_renderNat _ _ h2)

theorem mem_convert_to_str (q : ℚ) (c : Char) (hc : c ∈ convert_to_str q) :
    c = '-' ∨ c = ':' ∨ c = ',' ∨ ∃ d, d < 10 ∧ c = digitChar d := by
  unfold convert_to_str at hc
  have pad : ∀ w : ℕ, ∀ z : ℤ, c ∈ renderIntPad w z →
      c = '-' ∨ c = ':' ∨ c = ',' ∨ ∃ d, d < 10 ∧ c = digitChar d := by
    intro w z hw
    rcases mem_renderIntPad w z c hw with h1 | h1
    · exact Or.inl h1
    · exact Or.inr (Or.inr (Or.inr h1))
  rcases List.mem_append.mp hc with h | h
  · exact pad _ _ h
  rcases List.mem_cons.mp h with h | h
  · exact Or.inr (Or.inl h)
  rcases List.mem_append.mp h with h | h
  · exact pad _ _ h
  rcases List.mem_cons.mp h with h | h
  · exact Or.inr (Or.inl h)
  rcases List.mem_append.mp h with h | h
  · exact pad _ _ h
  rcases List.mem_cons.mp h with h | h
  · exact Or.inr (Or.inr (Or.inl h))
  · exact pad _ _ h

theorem space_notMem_convert_to_str (q : ℚ) : ' ' ∉ convert_to_str q := by
  intro h
  rcases mem_convert_to_str q ' ' h with h1 | h1 | h1 | ⟨d, hd, h1⟩
  · exact absurd h1 (by decide)
  · exact absurd h1 (by decide)
  · exact absurd h1 (by decide)
  · interval_cases d <;> exact absurd h1 (by decide)

theorem newline_notMem_convert_to_str (q : ℚ) : '\n' ∉ convert_to_str q := by
  intro h
  rcases mem_convert_to_str q '\n' h with h1 | h1 | h1 | ⟨d, hd, h1⟩
  · exact absurd h1 (by decide)
  · exact absurd h1 (by decide)
  · exact absurd h1 (by decide)
  · interval_cases d <;> exact absurd h1 (by decide)

theorem colon_notMem_renderIntPad (w : ℕ) (z : ℤ) : ':' ∉ renderIntPad w z := by
  intro h
  rcases mem_renderIntPad w z ':' h with h1 | ⟨d, hd, h1⟩
  · exact absurd h1 (by decide)
  · interval_cases d <;> exact absurd h1 (by decide)

theorem comma_notMem_renderIntPad (w : ℕ) (z : ℤ) : ',' ∉ renderIntPad w z := by
  intro h
  rcases mem_renderIntPad w z ',' h with h1 | ⟨d, hd, h1⟩
  · exact absurd h1 (by decide)
  · interval_cases d <;> exact absurd h1 (by decide)

/-! ### Python float modulo, embedded over `ℚ` -/

theorem fmod_nonneg (a b : ℚ) (hb : 0 < b) : 0 ≤ fmod a b := by
  unfold fmod
  have h1 : ((⌊a / b⌋ : ℤ) : ℚ) ≤ a / b := Int.floor_le _
  have h2 : b * ((⌊a / b⌋ : ℤ) : ℚ) ≤ b * (a / b) :=
    mul_le_mul_of_nonneg_left h1 (le_of_lt hb)
  have h3 : b * (a / b) = a := by
    field_simp
  linarith

theorem fmod_lt (a b : ℚ) (hb : 0 < b) : fmod a b < b := by
  unfold fmod
  have h1 : a / b < ((⌊a / b⌋ : ℤ) : ℚ) + 1 := Int.lt_floor_add_one _
  have h2 : b * (a / b) < b * (((⌊a / b⌋ : ℤ) : ℚ) + 1) := by
    exact (mul_lt_mul_left hb).mpr h1
  have h3 : b * (a / b) = a := by
    field_simp
  nlinarith

theorem floor_fmod_3600000 (q : ℚ) :
    ⌊fmod q 3600000 / 60000⌋ = ⌊q / 60000⌋ - 60 * ⌊q / 3600000⌋ := by
  unfold fmod
  have h : (q - 3600000 * ((⌊q / 3600000⌋ : ℤ) : ℚ)) / 60000
      = q / 60000 - (((60 * ⌊q / 3600000⌋ : ℤ) : ℤ) : ℚ) := by
    push_cast
    ring
  rw [h, Int.floor_sub_int]

theorem floor_fmod_60000 (q : ℚ) :
    ⌊fmod q 60000 / 1000⌋ = ⌊q / 1000⌋ - 60 * ⌊q / 60000⌋ := by
  unfold fmod
  have h : (q - 60000 * ((⌊q / 60000⌋ : ℤ) : ℚ)) / 1000
      = q / 1000 - (((60 * ⌊q / 60000⌋ : ℤ) : ℤ) : ℚ) := by
    push_cast
    ring
  rw [h, Int.floor_sub_int]

theorem floor_fmod_1000 (q : ℚ) :
    ⌊fmod q 1000⌋ = ⌊q⌋ - 1000 * ⌊q / 1000⌋ := by
  unfold fmod
  have h : q - 1000 * ((⌊q / 1000⌋ : ℤ) : ℚ)
      = q - (((1000 * ⌊q / 1000⌋ : ℤ) : ℤ) : ℚ) := by
    push_cast
    ring
  rw [h, Int.floor_sub_int]

/-! ### Single-character splitting -/

theorem splitCharGo_no (sep : Char) (rest : Str) (h : sep ∉ rest) :
    ∀ cur, splitCharGo sep cur rest = [cur.reverse ++ rest] := by
  induction rest with
  | nil => intro cur; simp [splitCharGo]
  | cons c cs ih =>
    intro cur
    simp only [List.mem_cons, not_or] at h
    unfold splitCharGo
    rw [if_neg (fun he => h.1 he.symm)]
    rw [ih h.2 (c :: cur)]
    simp

theorem splitCharGo_sep (sep : Char) (a b : Str) (h : sep ∉ a) :
    ∀ cur, splitCharGo sep cur (a ++ sep :: b) = (cur.reverse ++ a) :: splitChar sep b := by
  induction a with
  | nil =>
    intro cur
    simp only [List.nil_append, splitCharGo, if_pos rfl]
    simp [splitChar]
  | cons c cs ih =>
    intro cur
    simp only [List.mem_cons, not_or] at h
    have hcs : ¬ c = sep := fun he => h.1 he.symm
    simp only [List.cons_append, splitCharGo, if_neg hcs, List.append_eq]
    rw [ih h.2 (c :: cur)]
    simp

theorem splitChar_no (sep : Char) (s : Str) (h : sep ∉ s) : splitChar sep s = [s] := by
  unfold splitChar
  rw [splitCharGo_no sep s h []]
  rfl

theorem splitChar_sep (sep : Char) (a b : Str) (h : sep ∉ a) :
    splitChar sep (a ++ sep :: b) = a :: splitChar sep b := by
  unfold splitChar
  rw [splitCharGo_sep sep a b h []]
  rfl

/-! ### The codec round trip -/

theorem parseNat_renderIntPad (w : ℕ) (z : ℤ) (hz : 0 ≤ z) :
    parseNat (renderIntPad w z) = some z.toNat := by
  unfold renderIntPad
  rw [if_neg (not_lt.mpr hz)]
  exact parseNat_pad_render w z.toNat

/-- Re-parsing a formatted rational gives its floor: the heart of the
round-trip law, valid for every non-negative millisecond value the
splitter can produce. -/
theorem convert_to_ms_convert_to_str (q : ℚ) (hq : 0 ≤ q) :
    convert_to_ms (convert_to_str q) = some ⌊q⌋.toNat := by
  have hH : (0 : ℤ) ≤ ⌊q / 3600000⌋ := by
    rw [Int.le_floor]
    positivity
  have hM : (0 : ℤ) ≤ ⌊fmod q 3600000 / 60000⌋ := by
    rw [Int.le_floor]
    have := fmod_nonneg q 3600000 (by norm_num)
    positivity
  have hS : (0 : ℤ) ≤ ⌊fmod q 60000 / 1000⌋ := by
    rw [Int.le_floor]
    have := fmod_nonneg q 60000 (by norm_num)
    positivity
  have hMS : (0 : ℤ) ≤ ⌊fmod q 1000⌋ := by
    rw [Int.le_floor]
    exact_mod_cast fmod_nonneg q 1000 (by norm_num)
  unfold convert_to_str convert_to_ms
  rw [splitChar_sep ':' _ _ (colon_notMem_renderIntPad 2 _)]
  rw [splitChar_sep ':' _ _ (colon_notMem_renderIntPad 2 _)]
  have hlast : ':' ∉ renderIntPad 2 ⌊fmod q 60000 / 1000⌋ ++ ',' :: renderIntPad 3 ⌊fmod q 1000⌋ := by
    intro hmem
    rcases List.mem_append.mp hmem with h1 | h1
    · exact colon_notMem_renderIntPad _ _ h1
    · rcases List.mem_cons.mp h1 with h2 | h2
      · exact absurd h2 (by decide)
      · exact colon_notMem_renderIntPad _ _ h2
  rw [splitChar_no ':' _ hlast]
  dsimp only
  rw [splitChar_sep ',' _ _ (comma_notMem_renderIntPad 2 _)]
  rw [splitChar_no ',' _ (comma_notMem_renderIntPad 3 _)]
  rw [parseNat_renderIntPad _ _ hH, parseNat_renderIntPad _ _ hM]
  dsimp only
  rw [parseNat_renderIntPad _ _ hS, parseNat_renderIntPad _ _ hMS]
  have hsum : 3600000 * ⌊q / 3600000⌋ + 60000 * ⌊fmod q 3600000 / 60000⌋
      + 1000 * ⌊fmod q 60000 / 1000⌋ + ⌊fmod q 1000⌋ = ⌊q⌋ := by
    rw [floor_fmod_3600000, floor_fmod_60000, floor_fmod_1000]
    ring
  dsimp only
  rw [Option.some_inj]
  have e1 := Int.toNat_of_nonneg hH
  have e2 := Int.toNat_of_nonneg hM
  have e3 := Int.toNat_of_nonneg hS
  have e4 := Int.toNat_of_nonneg hMS
  have e5 : (0 : ℤ) ≤ ⌊q⌋ := Int.le_floor.mpr (by exact_mod_cast hq)
  omega

/-- Round trip at integer inputs: `convert_to_ms (convert_to_str ms) = ms`. -/
theorem roundtrip_nat (ms : ℕ) :
    convert_to_ms (convert_to_str (ms : ℚ)) = some ms := by
  rw [convert_to_ms_convert_to_str (ms : ℚ) (by positivity)]
  rw [Int.floor_natCast]
  rfl

/-! ### Substring search and two-way unpacking -/

theorem isPrefixOf_append_self (l t : Str) : l.isPrefixOf (l ++ t) = true := by
  induction l with
  | nil => simp [List.isPrefixOf]
  | cons c cs ih => simp [List.isPrefixOf, ih]

theorem findSep_append_self (c₀ : Char) (sep' a b : Str) (h : c₀ ∉ a) :
    findSep (c₀ :: sep') (a ++ (c₀ :: sep') ++ b) = some (a, b) := by
  induction a with
  | nil =>
    simp only [List.nil_append]
    rw [List.cons_append]
    unfold findSep
    rw [← List.cons_append, if_pos (isPrefixOf_append_self (c₀ :: sep') b)]
    rw [List.drop_left]
  | cons x xs ih =>
    simp only [List.mem_cons, not_or] at h
    simp only [List.cons_append]
    unfold findSep
    have hbx : (c₀ == x) = false := beq_eq_false_iff_ne.mpr h.1
    have hpre : (c₀ :: sep').isPrefixOf (x :: (xs ++ (c₀ :: sep') ++ b)) = false := by
      show ((c₀ == x) && sep'.isPrefixOf (xs ++ (c₀ :: sep') ++ b)) = false
      rw [hbx, Bool.false_and]
    rw [hpre]
    simp only [Bool.false_eq_true, if_false]
    rw [ih h.2]
    rfl

theorem findSep_none_of_head_notMem (c₀ : Char) (sep' s : Str) (h : c₀ ∉ s) :
    findSep (c₀ :: sep') s = none := by
  induction s with
  | nil => rfl
  | cons x xs ih =>
    simp only [List.mem_cons, not_or] at h
    unfold findSep
    have hbx : (c₀ == x) = false := beq_eq_false_iff_ne.mpr h.1
    have hpre : (c₀ :: sep').isPrefixOf (x :: xs) = false := by
      show ((c₀ == x) && sep'.isPrefixOf xs) = false
      rw [hbx, Bool.false_and]
    rw [hpre]
    simp only [Bool.false_eq_true, if_false]
    rw [ih h.2]
    rfl

theorem split2_append (c₀ : Char) (sep' a b : Str) (ha : c₀ ∉ a) (hb : c₀ ∉ b) :
    split2 (c₀ :: sep') (a ++ (c₀ :: sep') ++ b) = some (a, b) := by
  unfold split2
  rw [findSep_append_self c₀ sep' a b ha]
  dsimp only
  rw [findSep_none_of_head_notMem c₀ sep' b hb]

/-! ### Binary64 rounding: the values the claims need -/

theorem natBitsF_mono : ∀ f₁ : ℕ, ∀ f₂ n : ℕ, n ≤ f₁ → n ≤ f₂ →
    natBitsF f₁ n = natBitsF f₂ n := by
  intro f₁
  induction f₁ with
  | zero =>
    intro f₂ n h₁ h₂
    interval_cases n
    cases f₂ <;> simp [natBitsF]
  | succ f ih =>
    intro f₂ n h₁ h₂
    match f₂, n with
    | 0, n =>
      interval_cases n
      simp [natBitsF]
    | g + 1, 0 => simp [natBitsF]
    | g + 1, n + 1 =>
      simp only [natBitsF, if_neg (Nat.succ_ne_zero n)]
      have := ih g ((n + 1) / 2) (by omega) (by omega)
      rw [this]

theorem natBits_eq (n : ℕ) :
    natBits n = if n = 0 then 0 else natBits (n / 2) + 1 := by
  cases n with
  | zero => rfl
  | succ m =>
    simp only [if_neg (Nat.succ_ne_zero m)]
    show natBitsF (m + 1) (m + 1) = _
    simp only [natBitsF, if_neg (Nat.succ_ne_zero m)]
    rw [natBitsF_mono m ((m + 1) / 2) ((m + 1) / 2) (by omega) (by omega)]
    rfl

theorem natBits_le (n : ℕ) : ∀ k : ℕ, n < 2 ^ k → natBits n ≤ k := by
  induction n using Nat.strong_induction_on with
  | _ n ih =>
    intro k hk
    rw [natBits_eq]
    by_cases h0 : n = 0
    · simp [h0]
    · rw [if_neg h0]
      have hkpos : k ≠ 0 := by
        intro hc
        rw [hc] at hk
        simp at hk
        omega
      have hpow : 2 ^ k = 2 * 2 ^ (k - 1) := by
        rw [← pow_succ']
        congr 1
        omega
      have hdiv : n / 2 < 2 ^ (k - 1) := by omega
      have := ih (n / 2) (by omega) (k - 1) hdiv
      omega

theorem roundDouble_zero : roundDouble 0 = 0 := by
  unfold roundDouble
  rw [if_pos rfl]

theorem roundDouble_nonneg (q : ℚ) (h : 0 ≤ q) : 0 ≤ roundDouble q := by
  unfold roundDouble
  by_cases h0 : q = 0
  · rw [if_pos h0]
  · rw [if_neg h0, if_neg (not_lt.mpr h)]
    have hq : 0 < q := lt_of_le_of_ne h (Ne.symm h0)
    dsimp only [roundPos]
    have hx : (0 : ℚ) ≤ q * (2 : ℚ) ^ (52 - expDouble q) := by positivity
    have hn0 : (0 : ℤ) ≤ ⌊q * (2 : ℚ) ^ (52 - expDouble q)⌋ :=
      Int.le_floor.mpr (by exact_mod_cast hx)
    have hpow : (0 : ℚ) ≤ (2 : ℚ) ^ (expDouble q - 52) := by positivity
    have key : ∀ z : ℤ, 0 ≤ z → 0 ≤ (z : ℚ) * (2 : ℚ) ^ (expDouble q - 52) :=
      fun z hz => mul_nonneg (by exact_mod_cast hz) hpow
    split_ifs with h1 h2 h3
    · exact key _ (by omega)
    · exact key _ (by omega)
    · exact key _ (by omega)
    · exact key _ (by omega)

theorem roundDouble_natCast (n : ℕ) (h : n < 2 ^ 53) : roundDouble (n : ℚ) = n := by
  by_cases h0 : n = 0
  · subst h0
    rw [Nat.cast_zero, roundDouble_zero]
  · have hq0 : ((n : ℚ)) ≠ 0 := by
      exact_mod_cast h0
    have hqpos : (0 : ℚ) ≤ (n : ℚ) := by positivity
    unfold roundDouble
    rw [if_neg hq0, if_neg (not_lt.mpr hqpos)]
    have hzb : expDouble (n : ℚ) ≤ 52 := by
      unfold expDouble
      have hnum : ((n : ℚ)).num.toNat = n := by simp
      have hden : ((n : ℚ)).den = 1 := Rat.den_natCast n
      rw [hnum, hden]
      have hb : natBits n ≤ 53 := natBits_le n 53 h
      have hb1 : natBits 1 = 1 := by decide
      dsimp only
      split_ifs <;> omega
    dsimp only [roundPos]
    obtain ⟨j, hj⟩ : ∃ j : ℕ, 52 - expDouble (n : ℚ) = (j : ℤ) :=
      ⟨(52 - expDouble (n : ℚ)).toNat, (Int.toNat_of_nonneg (by omega)).symm⟩
    have h2 : (2 : ℚ) ^ (52 - expDouble (n : ℚ)) = ((2 ^ j : ℕ) : ℚ) := by
      rw [hj, zpow_natCast]
      push_cast
      ring
    rw [h2]
    have hx : (n : ℚ) * ((2 ^ j : ℕ) : ℚ) = ((n * 2 ^ j : ℕ) : ℚ) := by
      push_cast
      ring
    rw [hx, Int.floor_natCast]
    have hfrac : ((n * 2 ^ j : ℕ) : ℚ) - (((n * 2 ^ j : ℕ) : ℤ) : ℚ) = 0 := by
      push_cast
      ring
    rw [hfrac]
    rw [if_pos (by norm_num : (0 : ℚ) < 1 / 2)]
    have hzj : expDouble (n : ℚ) - 52 = -(j : ℤ) := by omega
    rw [hzj, zpow_neg, zpow_natCast]
    have hp0 : ((2 : ℚ) ^ j) ≠ 0 := by positivity
    push_cast
    field_simp

/-! ### Re-parsing formatted timecode pairs -/

theorem parseTimecodePair_format (a b : ℚ) (ha : 0 ≤ a) (hb : 0 ≤ b) :
    parseTimecodePair (convert_to_str a ++ sepArrow ++ convert_to_str b)
      = some (⌊a⌋.toNat, ⌊b⌋.toNat) := by
  unfold parseTimecodePair sepArrow
  rw [show ([' ', '-', '-', '>', ' '] : Str) = ' ' :: ['-', '-', '>', ' '] from rfl]
  rw [split2_append ' ' ['-', '-', '>', ' '] _ _ (space_notMem_convert_to_str a)
    (space_notMem_convert_to_str b)]
  dsimp only
  rw [convert_to_ms_convert_to_str a ha, convert_to_ms_convert_to_str b hb]

theorem split_timecode_parsed (tc : Str) (s e k : ℕ)
    (hp : parseTimecodePair tc = some (s, e)) (hk : k ≠ 0) :
    split_timecode tc k = some ((List.range k).map fun i : ℕ =>
      convert_to_str (roundDouble (roundDouble (s : ℚ)
          + roundDouble (roundDouble (i : ℚ)
            * roundDouble (((e : ℚ) - (s : ℚ)) / (k : ℚ))))) ++ sepArrow
        ++ convert_to_str (roundDouble (roundDouble (s : ℚ)
          + roundDouble (roundDouble ((i : ℚ) + 1)
            * roundDouble (((e : ℚ) - (s : ℚ)) / (k : ℚ)))))) := by
  unfold split_timecode
  rw [hp]
  dsimp only
  rw [if_neg hk]

/-- Claim C1 (amended).  Partition law under binary64 arithmetic: for a
valid timecode with interval `[s, e)`, `s ≤ e`, `e < 2^53`, split into
`k ≥ 1` parts, the emitted sub-intervals re-parse so that the first starts
at `s` and adjacent boundaries coincide; the final end is the formatted
rounding of `s + k*((e-s)/k)` in doubles, which cumulative rounding can
pull below `e`. -/
theorem split_timecode_partition (tc : Str) (k s e : ℕ) (subs : List Str)
    (hse : s ≤ e) (he : e < 2 ^ 53) (hk : 0 < k)
    (hp : parseTimecodePair tc = some (s, e))
    (hs : split_timecode tc k = some subs) :
    subs.length = k ∧
    subStartMs subs 0 = some s ∧
    ∀ i, i + 1 < k → subEndMs subs i = subStartMs subs (i + 1) := by
  rw [split_timecode_parsed tc s e k hp (by omega)] at hs
  set d : ℚ := roundDouble (((e : ℚ) - (s : ℚ)) / (k : ℚ)) with hd
  obtain rfl : subs = (List.range k).map fun i : ℕ =>
      convert_to_str (roundDouble (roundDouble (s : ℚ)
          + roundDouble (roundDouble (i : ℚ) * d))) ++ sepArrow
        ++ convert_to_str (roundDouble (roundDouble (s : ℚ)
          + roundDouble (roundDouble ((i : ℚ) + 1) * d))) := (Option.some_inj.mp hs).symm
  have hd0 : 0 ≤ d := by
    rw [hd]
    apply roundDouble_nonneg
    apply div_nonneg
    · have : (s : ℚ) ≤ (e : ℚ) := by exact_mod_cast hse
      linarith
    · positivity
  have hq1 : ∀ i : ℕ, 0 ≤ roundDouble (roundDouble (s : ℚ)
      + roundDouble (roundDouble (i : ℚ) * d)) := by
    intro i
    apply roundDouble_nonneg
    apply add_nonneg
    · exact roundDouble_nonneg _ (by positivity)
    · exact roundDouble_nonneg _ (mul_nonneg (roundDouble_nonneg _ (by positivity)) hd0)
  have hq2 : ∀ i : ℕ, 0 ≤ roundDouble (roundDouble (s : ℚ)
      + roundDouble (roundDouble ((i : ℚ) + 1) * d)) := by
    intro i
    apply roundDouble_nonneg
    apply add_nonneg
    · exact roundDouble_nonneg _ (by positivity)
    · exact roundDouble_nonneg _ (mul_nonneg (roundDouble_nonneg _ (by positivity)) hd0)
  have hget : ∀ i : ℕ, i < k →
      (((List.range k).map fun i : ℕ =>
        convert_to_str (roundDouble (roundDouble (s : ℚ)
            + roundDouble (roundDouble (i : ℚ) * d))) ++ sepArrow
          ++ convert_to_str (roundDouble (roundDouble (s : ℚ)
            + roundDouble (roundDouble ((i : ℚ) + 1) * d)))).get? i)
        = some (convert_to_str (roundDouble (roundDouble (s : ℚ)
            + roundDouble (roundDouble (i : ℚ) * d))) ++ sepArrow
          ++ convert_to_str (roundDouble (roundDouble (s : ℚ)
            + roundDouble (roundDouble ((i : ℚ) + 1) * d)))) := by
    intro i hi
    rw [List.get?_map, List.get?_range hi]
    rfl
  have hpiece : ∀ i : ℕ,
      parseTimecodePair (convert_to_str (roundDouble (roundDouble (s : ℚ)
            + roundDouble (roundDouble (i : ℚ) * d))) ++ sepArrow
          ++ convert_to_str (roundDouble (roundDouble (s : ℚ)
            + roundDouble (roundDouble ((i : ℚ) + 1) * d))))
        = some (⌊roundDouble (roundDouble (s : ℚ)
            + roundDouble (roundDouble (i : ℚ) * d))⌋.toNat,
          ⌊roundDouble (roundDouble (s : ℚ)
            + roundDouble (roundDouble ((i : ℚ) + 1) * d))⌋.toNat) :=
    fun i => parseTimecodePair_format _ _ (hq1 i) (hq2 i)
  refine ⟨by simp, ?_, ?_⟩
  · unfold subStartMs
    rw [hget 0 hk]
    show (parseTimecodePair _).map Prod.fst = some s
    rw [hpiece 0]
    have hs53 : s < 2 ^ 53 := lt_of_le_of_lt hse he
    have hv : roundDouble (roundDouble (s : ℚ)
        + roundDouble (roundDouble (((0 : ℕ)) : ℚ) * d)) = (s : ℚ) := by
      rw [Nat.cast_zero, roundDouble_zero, zero_mul, roundDouble_zero, add_zero,
        roundDouble_natCast s hs53, roundDouble_natCast s hs53]
    rw [Option.map_some']
    dsimp only
    rw [hv, Int.floor_natCast]
    rfl
  · intro i hik
    unfold subEndMs subStartMs
    rw [hget i (by omega), hget (i + 1) hik]
    show (parseTimecodePair _).map Prod.snd = (parseTimecodePair _).map Prod.fst
    rw [hpiece i, hpiece (i + 1)]
    have hv : ((i + 1 : ℕ) : ℚ) = (i : ℚ) + 1 := by
      push_cast
      ring
    rw [Option.map_some', Option.map_some']
    dsimp only
    rw [hv]

/-! ### Greedy wrapping: bounds and produced characters -/

theorem pySplitWsGo_no_space (rest : Str) : ∀ cur : Str,
    (∀ c ∈ cur, pyIsSpace c = false) →
    ∀ w ∈ pySplitWsGo cur rest, ∀ c ∈ w, pyIsSpace c = false := by
  induction rest with
  | nil =>
    intro cur hcur w hw c hc
    unfold pySplitWsGo at hw
    by_cases h : cur = []
    · simp [h] at hw
    · rw [if_neg h] at hw
      simp only [List.mem_singleton] at hw
      subst hw
      exact hcur c (List.mem_reverse.mp hc)
  | cons x xs ih =>
    intro cur hcur w hw c hc
    unfold pySplitWsGo at hw
    by_cases hsp : pyIsSpace x
    · rw [if_pos hsp] at hw
      by_cases h : cur = []
      · rw [if_pos h] at hw
        exact ih [] (by simp) w hw c hc
      · rw [if_neg h] at hw
        rcases List.mem_cons.mp hw with h1 | h1
        · subst h1
          exact hcur c (List.mem_reverse.mp hc)
        · exact ih [] (by simp) w h1 c hc
    · rw [if_neg hsp] at hw
      refine ih (x :: cur) ?_ w hw c hc
      intro c' hc'
      rcases List.mem_cons.mp hc' with h1 | h1
      · subst h1
        exact Bool.eq_false_iff.mpr hsp
      · exact hcur c' h1

theorem pySplitWs_no_space (s : Str) :
    ∀ w ∈ pySplitWs s, ∀ c ∈ w, pyIsSpace c = false :=
  pySplitWsGo_no_space s [] (by simp)

theorem splitLineGo_length_le (maxLength : ℕ) : ∀ ws : List Str, ∀ cur : Str,
    cur.length ≤ maxLength → (∀ w ∈ ws, w.length ≤ maxLength) →
    ∀ l ∈ splitLineGo maxLength cur ws, l.length ≤ maxLength := by
  intro ws
  induction ws with
  | nil =>
    intro cur hcur _ l hl
    unfold splitLineGo at hl
    by_cases h : cur = []
    · simp [h] at hl
    · rw [if_neg h] at hl
      simp only [List.mem_singleton] at hl
      subst hl
      exact hcur
  | cons w ws ih =>
    intro cur hcur hws l hl
    unfold splitLineGo at hl
    by_cases hfit : cur.length + 1 + w.length ≤ maxLength
    · rw [if_pos hfit] at hl
      refine ih _ ?_ (fun u hu => hws u (List.mem_cons_of_mem w hu)) l hl
      by_cases h : cur = []
      · rw [if_pos h]
        omega
      · rw [if_neg h]
        simp only [List.length_append, List.length_cons]
        omega
    · rw [if_neg hfit] at hl
      rcases List.mem_cons.mp hl with h1 | h1
      · subst h1
        exact hcur
      · exact ih w (hws w (List.mem_cons_self w ws))
          (fun u hu => hws u (List.mem_cons_of_mem w hu)) l h1

theorem splitLineGo_no_newline (maxLength : ℕ) : ∀ ws : List Str, ∀ cur : Str,
    '\n' ∉ cur → (∀ w ∈ ws, '\n' ∉ w) →
    ∀ l ∈ splitLineGo maxLength cur ws, '\n' ∉ l := by
  intro ws
  induction ws with
  | nil =>
    intro cur hcur _ l hl
    unfold splitLineGo at hl
    by_cases h : cur = []
    · simp [h] at hl
    · rw [if_neg h] at hl
      simp only [List.mem_singleton] at hl
      subst hl
      exact hcur
  | cons w ws ih =>
    intro cur hcur hws l hl
    unfold splitLineGo at hl
    by_cases hfit : cur.length + 1 + w.length ≤ maxLength
    · rw [if_pos hfit] at hl
      refine ih _ ?_ (fun u hu => hws u (List.mem_cons_of_mem w hu)) l hl
      by_cases h : cur = []
      · rw [if_pos h]
        exact hws w (List.mem_cons_self w ws)
      · rw [if_neg h]
        intro hmem
        rcases List.mem_append.mp hmem with h1 | h1
        · exact hcur h1
        · rcases List.mem_cons.mp h1 with h2 | h2
          · exact absurd h2 (by decide)
          · exact hws w (List.mem_cons_self w ws) h2
    · rw [if_neg hfit] at hl
      rcases List.mem_cons.mp hl with h1 | h1
      · subst h1
        exact hcur
      · exact ih w (hws w (List.mem_cons_self w ws))
          (fun u hu => hws u (List.mem_cons_of_mem w hu)) l h1

theorem split_line_no_newline (line : Str) (maxLength : ℕ) :
    ∀ l ∈ split_line line maxLength, '\n' ∉ l := by
  unfold split_line
  apply splitLineGo_no_newline maxLength (pySplitWs line) [] (by simp)
  intro w hw hmem
  have := pySplitWs_no_space line w hw '\n' hmem
  simp [pyIsSpace] at this

/-! ### Multi-character splitting: structure of `pySplit` -/

theorem isPrefixOf_eq_append (sep s : Str) (h : sep.isPrefixOf s = true) :
    s = sep ++ s.drop sep.length := by
  induction sep generalizing s with
  | nil => simp
  | cons c cs ih =>
    cases s with
    | nil => simp [List.isPrefixOf] at h
    | cons x xs =>
      have h' : ((c == x) && cs.isPrefixOf xs) = true := h
      obtain ⟨h1, h2⟩ := Bool.and_eq_true_iff.mp h'
      have hcx : c = x := beq_iff_eq.mp h1
      subst hcx
      simp only [List.length_cons, List.drop_succ_cons, List.cons_append]
      congr 1
      exact ih xs h2

theorem findSep_some_eq (sep : Str) : ∀ s a b : Str,
    findSep sep s = some (a, b) → s = a ++ sep ++ b := by
  intro s
  induction s with
  | nil => intro a b h; simp [findSep] at h
  | cons c cs ih =>
    intro a b h
    unfold findSep at h
    by_cases hp : sep.isPrefixOf (c :: cs) = true
    · rw [if_pos hp] at h
      obtain ⟨ha, hb⟩ := Prod.mk.injEq .. ▸ Option.some_inj.mp h
      subst ha
      rw [List.nil_append]
      have := isPrefixOf_eq_append sep (c :: cs) hp
      rw [← hb]
      exact this
    · rw [if_neg (by simpa using hp)] at h
      rcases Option.map_eq_some'.mp h with ⟨⟨a', b'⟩, hfs, heq⟩
      obtain ⟨ha, hb⟩ := Prod.mk.injEq .. ▸ heq
      subst ha
      subst hb
      have := ih a' b' hfs
      rw [this]
      simp

theorem findSep_some_length (sep s a b : Str) (hsep : sep ≠ [])
    (h : findSep sep s = some (a, b)) : b.length < s.length := by
  have heq := findSep_some_eq sep s a b h
  have : s.length = a.length + sep.length + b.length := by
    rw [heq]
    simp [List.length_append]
    omega
  have hpos : 0 < sep.length := List.length_pos.mpr hsep
  omega

theorem pySplitF_mono (sep : Str) (hsep : sep ≠ []) : ∀ f₁ f₂ : ℕ, ∀ s : Str,
    s.length ≤ f₁ → s.length ≤ f₂ → pySplitF sep f₁ s = pySplitF sep f₂ s := by
  intro f₁
  induction f₁ with
  | zero =>
    intro f₂ s h₁ h₂
    have hs : s = [] := List.eq_nil_of_length_eq_zero (by omega)
    subst hs
    cases f₂ with
    | zero => rfl
    | succ g =>
      show _ = pySplitF sep (g + 1) []
      unfold pySplitF
      have : findSep sep [] = none := by unfold findSep; rfl
      rw [this]
  | succ f ih =>
    intro f₂ s h₁ h₂
    cases f₂ with
    | zero =>
      have hs : s = [] := List.eq_nil_of_length_eq_zero (by omega)
      subst hs
      show pySplitF sep (f + 1) [] = _
      unfold pySplitF
      have : findSep sep [] = none := by unfold findSep; rfl
      rw [this]
    | succ g =>
      show pySplitF sep (f + 1) s = pySplitF sep (g + 1) s
      unfold pySplitF
      cases hf : findSep sep s with
      | none => rfl
      | some p =>
        obtain ⟨a, b⟩ := p
        have hb := findSep_some_length sep s a b hsep hf
        dsimp only
        rw [ih g b (by omega) (by omega)]

theorem pySplit_eq (sep s : Str) (hsep : sep ≠ []) :
    pySplit sep s = (match findSep sep s with
      | none => [s]
      | some (a, b) => a :: pySplit sep b) := by
  cases hf : findSep sep s with
  | none =>
    cases s with
    | nil => rfl
    | cons c cs =>
      show pySplitF sep (cs.length + 1) (c :: cs) = _
      unfold pySplitF
      rw [hf]
  | some p =>
    obtain ⟨a, b⟩ := p
    cases s with
    | nil =>
      have : findSep sep ([] : Str) = none := by unfold findSep; rfl
      rw [this] at hf
      cases hf
    | cons c cs =>
      show pySplitF sep (cs.length + 1) (c :: cs) = _
      unfold pySplitF
      rw [hf]
      have hb := findSep_some_length sep (c :: cs) a b hsep hf
      simp only [List.length_cons] at hb
      dsimp only
      rw [pySplitF_mono sep hsep cs.length b.length b (by omega) (by omega)]
      rfl

/-! ### Occurrences of the blank-line separator -/

theorem nnSep_ne_nil : nnSep ≠ [] := by decide

theorem findSep_cons_of_no_match (sep : Str) (c : Char) (s : Str)
    (h : sep.isPrefixOf (c :: s) = false) :
    findSep sep (c :: s) = (findSep sep s).map (fun p => (c :: p.1, p.2)) := by
  conv_lhs => unfold findSep
  rw [h]
  simp only [Bool.false_eq_true, if_false]

theorem findSep_nn_skip (t : Str) (ht : '\n' ∉ t) : ∀ z : Str,
    findSep nnSep (t ++ z) = (findSep nnSep z).map (fun p => (t ++ p.1, p.2)) := by
  induction t with
  | nil =>
    intro z
    simp only [List.nil_append]
    cases findSep nnSep z with
    | none => rfl
    | some p => rfl
  | cons c cs ih =>
    intro z
    simp only [List.mem_cons, not_or] at ht
    simp only [List.cons_append]
    have hbx : ('\n' == c) = false := beq_eq_false_iff_ne.mpr ht.1
    have hpre : nnSep.isPrefixOf (c :: (cs ++ z)) = false := by
      show (('\n' == c) && (['\n'] : Str).isPrefixOf (cs ++ z)) = false
      rw [hbx, Bool.false_and]
    rw [findSep_cons_of_no_match nnSep c (cs ++ z) hpre, ih ht.2 z]
    cases findSep nnSep z with
    | none => rfl
    | some p => rfl

theorem findSep_nn_cons_newline (z : Str) (hz : z.head? ≠ some '\n') :
    findSep nnSep ('\n' :: z) = (findSep nnSep z).map (fun p => ('\n' :: p.1, p.2)) := by
  have hpre : nnSep.isPrefixOf ('\n' :: z) = false := by
    cases z with
    | nil => rfl
    | cons c cs =>
      have hc : ¬ c = '\n' := by
        intro he
        exact hz (by simp [he])
      show (('\n' == '\n') && (('\n' == c) && (([] : Str).isPrefixOf cs))) = false
      rw [beq_eq_false_iff_ne.mpr (fun he => hc he.symm)]
      simp
  exact findSep_cons_of_no_match nnSep '\n' z hpre

theorem findSep_nn_base (b : Str) : findSep nnSep ('\n' :: '\n' :: b) = some ([], b) := by
  conv_lhs => unfold findSep
  have hpre : nnSep.isPrefixOf ('\n' :: '\n' :: b) = true := by
    show (('\n' == '\n') && (('\n' == '\n') && (([] : Str).isPrefixOf b))) = true
    simp [List.isPrefixOf]
  rw [if_pos hpre]
  rfl

theorem findSep_nn_pre (pre s : Str) (hpre : pre = [] ∨ pre = ['\n'])
    (hs : s.head? ≠ some '\n') :
    findSep nnSep (pre ++ s) = (findSep nnSep s).map (fun p => (pre ++ p.1, p.2)) := by
  rcases hpre with h | h
  · subst h
    simp only [List.nil_append]
    cases findSep nnSep s with
    | none => rfl
    | some p => rfl
  · subst h
    show findSep nnSep ('\n' :: s) = _
    rw [findSep_nn_cons_newline s hs]
    cases findSep nnSep s with
    | none => rfl
    | some p => rfl

theorem findSep_nn_singleton : findSep nnSep ['\n'] = none := by decide

theorem findSep_nn_entry_end (t w : Str) (ht : '\n' ∉ t) (hw : '\n' ∉ w) :
    findSep nnSep (t ++ '\n' :: w) = none := by
  rw [findSep_nn_skip t ht ('\n' :: w)]
  cases w with
  | nil =>
    rw [findSep_nn_singleton]
    rfl
  | cons c cs =>
    have hc : ¬ c = '\n' := by
      intro he
      exact hw (by simp [he])
    rw [findSep_nn_cons_newline (c :: cs) (by simpa using hc)]
    have hnone := findSep_none_of_head_notMem '\n' ['\n'] (c :: cs) hw
    rw [show ('\n' :: ['\n'] : Str) = nnSep from rfl] at hnone
    rw [hnone]
    rfl

theorem findSep_nn_entry_mid (t w z : Str) (ht : '\n' ∉ t) (hw : '\n' ∉ w)
    (hwne : w ≠ []) :
    findSep nnSep (t ++ '\n' :: (w ++ '\n' :: '\n' :: z)) = some (t ++ '\n' :: w, z) := by
  rw [findSep_nn_skip t ht]
  cases w with
  | nil => exact absurd rfl hwne
  | cons c cs =>
    have hc : ¬ c = '\n' := by
      intro he
      exact hw (by simp [he])
    rw [findSep_nn_cons_newline ((c :: cs) ++ '\n' :: '\n' :: z) (by simpa using hc)]
    rw [findSep_nn_skip (c :: cs) hw]
    rw [findSep_nn_base]
    simp

theorem findSep_nn_entry_mid_empty (t z : Str) (ht : '\n' ∉ t) :
    findSep nnSep (t ++ '\n' :: '\n' :: '\n' :: z) = some (t, '\n' :: z) := by
  rw [show ('\n' :: '\n' :: '\n' :: z : Str) = ('\n' :: '\n' :: ('\n' :: z) : Str) from rfl]
  rw [findSep_nn_skip t ht, findSep_nn_base]
  simp

/-! ### Emitted sub-blocks tile back: piece counting -/

theorem head_ne_newline (t : Str) (htne : t ≠ []) (ht : '\n' ∉ t) :
    ∀ z : Str, (t ++ z).head? ≠ some '\n' := by
  intro z
  cases t with
  | nil => exact absurd rfl htne
  | cons a as =>
    simp only [List.cons_append, List.head?_cons, ne_eq, Option.some.injEq]
    intro he
    exact ht (by simp [he])

theorem pySplit_joinSep_length (entries : List Str) :
    entries ≠ [] → (∀ x ∈ entries, GoodEntry x) →
    ∀ pre : Str, pre = [] ∨ pre = ['\n'] →
      (pySplit nnSep (pre ++ joinSep nnSep entries)).length = entries.length := by
  induction entries with
  | nil => intro h; exact absurd rfl h
  | cons x rest ih =>
    intro _ hgood pre hpre
    obtain ⟨t, w, hx, htne, ht, hw⟩ := hgood x (List.mem_cons_self x rest)
    cases rest with
    | nil =>
      rw [show joinSep nnSep [x] = x from rfl, hx]
      have hfind : findSep nnSep (pre ++ (t ++ '\n' :: w)) = none := by
        rw [findSep_nn_pre pre _ hpre (head_ne_newline t htne ht ('\n' :: w))]
        rw [findSep_nn_entry_end t w ht hw]
        rfl
      rw [pySplit_eq _ _ nnSep_ne_nil, hfind]
      rfl
    | cons y rest' =>
      have hj : joinSep nnSep (x :: y :: rest')
          = x ++ nnSep ++ joinSep nnSep (y :: rest') := rfl
      rw [hj, hx]
      have hassoc : (t ++ '\n' :: w) ++ nnSep ++ joinSep nnSep (y :: rest')
          = t ++ '\n' :: (w ++ '\n' :: '\n' :: joinSep nnSep (y :: rest')) := by
        simp [nnSep, List.append_assoc]
      rw [hassoc]
      by_cases hwe : w = []
      · subst hwe
        have hsh : t ++ '\n' :: ([] ++ '\n' :: '\n' :: joinSep nnSep (y :: rest'))
            = t ++ '\n' :: '\n' :: '\n' :: joinSep nnSep (y :: rest') := by simp
        rw [hsh]
        have hfind : findSep nnSep (pre ++ (t ++ '\n' :: '\n' :: '\n' :: joinSep nnSep (y :: rest')))
            = some (pre ++ t, '\n' :: joinSep nnSep (y :: rest')) := by
          rw [findSep_nn_pre pre _ hpre
            (head_ne_newline t htne ht ('\n' :: '\n' :: '\n' :: joinSep nnSep (y :: rest')))]
          rw [findSep_nn_entry_mid_empty t _ ht]
          rfl
        rw [pySplit_eq _ _ nnSep_ne_nil, hfind]
        have hrec := ih (by simp) (fun u hu => hgood u (List.mem_cons_of_mem x hu))
          ['\n'] (Or.inr rfl)
        simp only [List.length_cons]
        rw [show ('\n' :: joinSep nnSep (y :: rest') : Str)
          = ['\n'] ++ joinSep nnSep (y :: rest') from rfl]
        rw [hrec]
        simp
      · have hfind : findSep nnSep (pre ++ (t ++ '\n' :: (w ++ '\n' :: '\n' :: joinSep nnSep (y :: rest'))))
            = some (pre ++ (t ++ '\n' :: w), joinSep nnSep (y :: rest')) := by
          rw [findSep_nn_pre pre _ hpre
            (head_ne_newline t htne ht ('\n' :: (w ++ '\n' :: '\n' :: joinSep nnSep (y :: rest'))))]
          rw [findSep_nn_entry_mid t w _ ht hw hwe]
          rfl
        rw [pySplit_eq _ _ nnSep_ne_nil, hfind]
        have hrec := ih (by simp) (fun u hu => hgood u (List.mem_cons_of_mem x hu))
          [] (Or.inl rfl)
        simp only [List.nil_append] at hrec
        simp only [List.length_cons]
        rw [hrec]
        simp

/-! ### Analysis of `process_block` -/

theorem mem_zipWith {α β γ : Type} (f : α → β → γ) :
    ∀ (as : List α) (bs : List β), ∀ x ∈ List.zipWith f as bs,
      ∃ a ∈ as, ∃ b ∈ bs, x = f a b := by
  intro as
  induction as with
  | nil => intro bs x hx; simp at hx
  | cons a as ih =>
    intro bs x hx
    cases bs with
    | nil => simp at hx
    | cons b bs =>
      rcases List.mem_cons.mp hx with h | h
      · exact ⟨a, List.mem_cons_self a as, b, List.mem_cons_self b bs, h⟩
      · rcases ih bs x h with ⟨a', ha', b', hb', hx'⟩
        exact ⟨a', List.mem_cons_of_mem a ha', b', List.mem_cons_of_mem b hb', hx'⟩

theorem joinSep_ne_nil (sep : Str) (entries : List Str) (h1 : entries ≠ [])
    (h2 : ∀ x ∈ entries, x ≠ []) : joinSep sep entries ≠ [] := by
  cases entries with
  | nil => exact absurd rfl h1
  | cons x rest =>
    cases rest with
    | nil => exact h2 x (List.mem_cons_self x [])
    | cons y rest' =>
      show x ++ sep ++ joinSep sep (y :: rest') ≠ []
      simp only [ne_eq, List.append_eq_nil]
      intro hc
      exact h2 x (List.mem_cons_self x _) hc.1.1

theorem tc_entry_ne_nil (q1 q2 : ℚ) :
    convert_to_str q1 ++ sepArrow ++ convert_to_str q2 ≠ [] := by
  simp [sepArrow, List.append_eq_nil]

theorem newline_notMem_tc_entry (q1 q2 : ℚ) :
    '\n' ∉ convert_to_str q1 ++ sepArrow ++ convert_to_str q2 := by
  intro h
  rcases List.mem_append.mp h with h1 | h1
  · rcases List.mem_append.mp h1 with h2 | h2
    · exact newline_notMem_convert_to_str q1 h2
    · exact absurd h2 (by decide)
  · exact newline_notMem_convert_to_str q2 h1

theorem split_timecode_some (tc : Str) (k : ℕ) (tcs : List Str)
    (h : split_timecode tc k = some tcs) :
    k ≠ 0 ∧ tcs.length = k ∧
    ∀ u ∈ tcs, ∃ q1 q2 : ℚ, u = convert_to_str q1 ++ sepArrow ++ convert_to_str q2 := by
  unfold split_timecode at h
  cases hp : parseTimecodePair tc with
  | none => rw [hp] at h; cases h
  | some p =>
    obtain ⟨s, e⟩ := p
    rw [hp] at h
    dsimp only at h
    by_cases hk : k = 0
    · rw [if_pos hk] at h
      cases h
    · rw [if_neg hk] at h
      have htcs := (Option.some_inj.mp h).symm
      refine ⟨hk, ?_, ?_⟩
      · rw [htcs]
        simp
      · intro u hu
        rw [htcs] at hu
        rcases List.mem_map.mp hu with ⟨i, _, hti⟩
        exact ⟨_, _, hti.symm⟩

theorem process_block_some (b : Str) (maxLength : ℕ) (pb : Str) (k : ℕ)
    (h : process_block b maxLength = some (pb, k)) :
    (pb = [] ∧ k = 0) ∨ (pb ≠ [] ∧ 0 < k ∧ (pySplit nnSep pb).length = k) := by
  unfold process_block at h
  cases hL : dropIndex (splitChar '\n' b) with
  | nil =>
    rw [hL] at h
    obtain ⟨h1, h2⟩ := Prod.mk.injEq .. ▸ Option.some_inj.mp h
    exact Or.inl ⟨h1.symm, h2.symm⟩
  | cons timecode rest =>
    cases rest with
    | nil =>
      rw [hL] at h
      obtain ⟨h1, h2⟩ := Prod.mk.injEq .. ▸ Option.some_inj.mp h
      exact Or.inl ⟨h1.symm, h2.symm⟩
    | cons textLine textRest =>
      rw [hL] at h
      dsimp only at h
      by_cases ha : hasArrow timecode
      · rw [if_pos ha] at h
        set flat := (List.map (fun l => split_line l maxLength) (textLine :: textRest)).flatten
          with hflat
        cases hst : split_timecode timecode flat.length with
        | none => rw [hst] at h; cases h
        | some tcs =>
          rw [hst] at h
          dsimp only at h
          obtain ⟨h1, h2⟩ := Prod.mk.injEq .. ▸ Option.some_inj.mp h
          obtain ⟨hk, hlen_tcs, hshape⟩ := split_timecode_some _ _ _ hst
          set entries := List.zipWith (fun t l => t ++ '\n' :: l) tcs flat with hentries
          have hlen_entries : entries.length = flat.length := by
            rw [hentries, List.length_zipWith, hlen_tcs]
            omega
          have hgood : ∀ x ∈ entries, GoodEntry x := by
            intro x hx
            rcases mem_zipWith _ tcs flat x hx with ⟨t, htmem, l, hlmem, hxe⟩
            obtain ⟨q1, q2, htq⟩ := hshape t htmem
            refine ⟨t, l, hxe, ?_, ?_, ?_⟩
            · rw [htq]; exact tc_entry_ne_nil q1 q2
            · rw [htq]; exact newline_notMem_tc_entry q1 q2
            · rcases List.mem_flatten.mp hlmem with ⟨ls, hls, hlin⟩
              rcases List.mem_map.mp hls with ⟨u, _, hu⟩
              rw [← hu] at hlin
              exact split_line_no_newline u maxLength l hlin
          have hene : entries ≠ [] := by
            intro hc
            rw [hc] at hlen_entries
            simp at hlen_entries
            omega
          have hpbne : pb ≠ [] := by
            rw [← h1]
            apply joinSep_ne_nil nnSep entries hene
            intro x hx
            obtain ⟨t, w, hxe, htne, _, _⟩ := hgood x hx
            rw [hxe]
            simp
          refine Or.inr ⟨hpbne, by omega, ?_⟩
          have hcount := pySplit_joinSep_length entries hene hgood [] (Or.inl rfl)
          simp only [List.nil_append] at hcount
          rw [← h1, hcount, hlen_entries, ← h2]
      · rw [if_neg ha] at h
        obtain ⟨h1, h2⟩ := Prod.mk.injEq .. ▸ Option.some_inj.mp h
        exact Or.inl ⟨h1.symm, h2.symm⟩

/-! ### The emission loop -/

theorem numberFrom_map_fst : ∀ (l : List Str) (n : ℕ),
    (numberFrom n l).map Prod.fst = List.range' n l.length := by
  intro l
  induction l with
  | nil => intro n; rfl
  | cons p ps ih =>
    intro n
    show n :: (numberFrom (n + 1) ps).map Prod.fst = List.range' n (ps.length + 1)
    rw [ih (n + 1), List.range'_succ]

theorem numberFrom_map_snd : ∀ (l : List Str) (n : ℕ),
    (numberFrom n l).map Prod.snd = l := by
  intro l
  induction l with
  | nil => intro n; rfl
  | cons p ps ih =>
    intro n
    show p :: (numberFrom (n + 1) ps).map Prod.snd = p :: ps
    rw [ih (n + 1)]

theorem numberFrom_length : ∀ (l : List Str) (n : ℕ),
    (numberFrom n l).length = l.length := by
  intro l
  induction l with
  | nil => intro n; rfl
  | cons p ps ih =>
    intro n
    show (numberFrom (n + 1) ps).length + 1 = ps.length + 1
    rw [ih (n + 1)]

theorem range'_add_append : ∀ (m : ℕ) (a k : ℕ),
    List.range' a m ++ List.range' (a + m) k = List.range' a (m + k) := by
  intro m
  induction m with
  | zero => intro a k; simp
  | succ m ih =>
    intro a k
    rw [List.range'_succ, List.cons_append, show m + 1 + k = (m + k) + 1 by omega,
      List.range'_succ]
    congr 1
    rw [show a + (m + 1) = (a + 1) + m by omega]
    exact ih (a + 1) k

/-- Unfolding of one loop step on a block that processes successfully and
emits (`processed_block` truthy). -/
theorem mainLoop_cons_emit (maxLength : ℕ) (b : Str) (bs : List Str) (n : ℕ)
    (pb : Str) (k : ℕ) (hpb : process_block b maxLength = some (pb, k))
    (hne : pb ≠ []) :
    mainLoop maxLength (b :: bs) n =
      (numberFrom n (pySplit nnSep pb)
          ++ (mainLoop maxLength bs (n + (pySplit nnSep pb).length)).1,
        (mainLoop maxLength bs (n + (pySplit nnSep pb).length)).2) := by
  conv_lhs => unfold mainLoop
  rw [hpb]
  dsimp only
  rw [if_neg hne]

/-- Unfolding of one loop step on a block whose processed result is empty
(the skip path). -/
theorem mainLoop_cons_skip (maxLength : ℕ) (b : Str) (bs : List Str) (n : ℕ)
    (hpb : process_block b maxLength = some ([], 0)) :
    mainLoop maxLength (b :: bs) n = mainLoop maxLength bs n := by
  conv_lhs => unfold mainLoop
  rw [hpb]
  rfl

/-- Unfolding of one loop step on a block that raises: the loop aborts with
what was written so far (nothing from this point on). -/
theorem mainLoop_cons_abort (maxLength : ℕ) (b : Str) (bs : List Str) (n : ℕ)
    (hpb : process_block b maxLength = none) :
    mainLoop maxLength (b :: bs) n = ([], n, false) := by
  conv_lhs => unfold mainLoop
  rw [hpb]

theorem mainLoop_spec (maxLength : ℕ) : ∀ (blocks : List Str) (n : ℕ),
    (mainLoop maxLength blocks n).2.2 = true →
    (mainLoop maxLength blocks n).1.map Prod.fst
        = List.range' n (mainLoop maxLength blocks n).1.length ∧
      (mainLoop maxLength blocks n).1.length
        = (blocks.map (fun b => wrappedCount b maxLength)).sum ∧
      (mainLoop maxLength blocks n).2.1
        = n + (mainLoop maxLength blocks n).1.length := by
  intro blocks
  induction blocks with
  | nil => intro n _; simp [mainLoop]
  | cons b bs ih =>
    intro n hok
    cases hpb : process_block b maxLength with
    | none =>
      rw [mainLoop_cons_abort maxLength b bs n hpb] at hok
      cases hok
    | some p =>
      obtain ⟨pb, k⟩ := p
      have hwc : wrappedCount b maxLength = k := by
        unfold wrappedCount
        rw [hpb]
      rcases process_block_some b maxLength pb k hpb with ⟨hpbe, hk0⟩ | ⟨hne, hkpos, hcount⟩
      · subst hpbe
        subst hk0
        rw [mainLoop_cons_skip maxLength b bs n hpb] at hok ⊢
        obtain ⟨i1, i2, i3⟩ := ih n hok
        refine ⟨i1, ?_, i3⟩
        rw [i2]
        simp [hwc]
      · rw [mainLoop_cons_emit maxLength b bs n pb k hpb hne] at hok ⊢
        dsimp only at hok ⊢
        obtain ⟨i1, i2, i3⟩ := ih (n + (pySplit nnSep pb).length) hok
        constructor
        · rw [List.map_append, numberFrom_map_fst, i1, List.length_append,
            numberFrom_length]
          rw [range'_add_append]
        constructor
        · rw [List.length_append, numberFrom_length, List.map_cons, List.sum_cons,
            hwc, i2, hcount]
        · rw [List.length_append, numberFrom_length, i3, hcount]
          omega

theorem mainLoop_no_abort (maxLength : ℕ) : ∀ (blocks : List Str) (n : ℕ),
    (∀ b ∈ blocks, process_block b maxLength ≠ none) →
    (mainLoop maxLength blocks n).2.2 = true ∧
      (mainLoop maxLength blocks n).1.map Prod.snd
        = (blocks.map (fun b => piecesOf b maxLength)).flatten := by
  intro blocks
  induction blocks with
  | nil => intro n _; simp [mainLoop]
  | cons b bs ih =>
    intro n hno
    cases hpb : process_block b maxLength with
    | none => exact absurd hpb (hno b (List.mem_cons_self b bs))
    | some p =>
      obtain ⟨pb, k⟩ := p
      have hpo : piecesOf b maxLength = if pb = [] then [] else pySplit nnSep pb := by
        unfold piecesOf
        rw [hpb]
      by_cases hne : pb = []
      · subst hne
        have hk0 : k = 0 := by
          rcases process_block_some b maxLength [] k hpb with ⟨_, h⟩ | ⟨hc, _⟩
          · exact h
          · exact absurd rfl hc
        subst hk0
        rw [mainLoop_cons_skip maxLength b bs n hpb]
        obtain ⟨i1, i2⟩ := ih n (fun u hu => hno u (List.mem_cons_of_mem b hu))
        refine ⟨i1, ?_⟩
        have hpo2 : piecesOf b maxLength = [] := by
          rw [hpo]
          rfl
        rw [i2, List.map_cons, List.flatten_cons, hpo2]
        rfl
      · rw [mainLoop_cons_emit maxLength b bs n pb k hpb hne]
        dsimp only
        obtain ⟨i1, i2⟩ := ih (n + (pySplit nnSep pb).length)
          (fun u hu => hno u (List.mem_cons_of_mem b hu))
        refine ⟨i1, ?_⟩
        have hpo2 : piecesOf b maxLength = pySplit nnSep pb := by
          rw [hpo, if_neg hne]
        rw [List.map_append, numberFrom_map_snd, i2, List.map_cons, List.flatten_cons, hpo2]

theorem mainLoop_skip_invalid (maxLength : ℕ) (b : Str)
    (h : process_block b maxLength = some ([], 0)) :
    ∀ (bs₁ bs₂ : List Str) (n : ℕ),
      mainLoop maxLength (bs₁ ++ b :: bs₂) n = mainLoop maxLength (bs₁ ++ bs₂) n := by
  intro bs₁
  induction bs₁ with
  | nil =>
    intro bs₂ n
    exact mainLoop_cons_skip maxLength b bs₂ n h
  | cons c cs ih =>
    intro bs₂ n
    show mainLoop maxLength (c :: (cs ++ b :: bs₂)) n = mainLoop maxLength (c :: (cs ++ bs₂)) n
    cases hpc : process_block c maxLength with
    | none =>
      rw [mainLoop_cons_abort maxLength c _ n hpc, mainLoop_cons_abort maxLength c _ n hpc]
    | some p =>
      obtain ⟨pb, k⟩ := p
      by_cases hne : pb = []
      · subst hne
        have hk0 : k = 0 := by
          rcases process_block_some c maxLength [] k hpc with ⟨_, hz⟩ | ⟨hc, _⟩
          · exact hz
          · exact absurd rfl hc
        subst hk0
        rw [mainLoop_cons_skip maxLength c _ n hpc, mainLoop_cons_skip maxLength c _ n hpc]
        exact ih bs₂ n
      · rw [mainLoop_cons_emit maxLength c _ n pb k hpc hne,
          mainLoop_cons_emit maxLength c _ n pb k hpc hne]
        rw [ih bs₂ (n + (pySplit nnSep pb).length)]

/-! ### The claims -/

/-- Claim C4.  Round trip: formatting a non-negative integer millisecond
count as `HH:MM:SS,mmm` and parsing the result back is the identity. -/
theorem convert_roundtrip (ms : ℕ) :
    convert_to_ms (convert_to_str (ms : ℚ)) = some ms :=
  roundtrip_nat ms

/-- Claim C7.  Wrapping bound: with every word at most `maxLength` long no
emitted line exceeds `maxLength`; a lone word longer than `maxLength` is
emitted unsplit as its own line. -/
theorem wrapping_bound (maxLength : ℕ) (text₁ text₂ w : Str)
    (hmax : 1 ≤ maxLength)
    (hwords : ∀ u ∈ pySplitWs text₁, u.length ≤ maxLength)
    (hsingle : pySplitWs text₂ = [w]) (hlong : maxLength < w.length) :
    (∀ l ∈ split_line text₁ maxLength, l.length ≤ maxLength) ∧
    w ∈ split_line text₂ maxLength := by
  constructor
  · unfold split_line
    exact splitLineGo_length_le maxLength (pySplitWs text₁) [] (by simp) hwords
  · unfold split_line
    rw [hsingle]
    have hwne : w ≠ [] := by
      intro hc
      rw [hc] at hlong
      simp at hlong
    have h1 : ¬ (List.length ([] : Str) + 1 + w.length ≤ maxLength) := by
      simp
      omega
    show w ∈ splitLineGo maxLength [] [w]
    unfold splitLineGo
    rw [if_neg h1]
    unfold splitLineGo
    rw [if_neg hwne]
    simp

/-- Claim C10.  When the first word of the text is at least `maxLength`
long, the joining space is still counted against the budget, so the first
emitted line is the empty string. -/
theorem leading_empty_line (maxLength : ℕ) (text w : Str) (ws : List Str)
    (hmax : 1 ≤ maxLength) (hsplit : pySplitWs text = w :: ws)
    (hlong : maxLength ≤ w.length) :
    ∃ rest, split_line text maxLength = [] :: rest := by
  unfold split_line
  rw [hsplit]
  refine ⟨splitLineGo maxLength w ws, ?_⟩
  have h1 : ¬ (List.length ([] : Str) + 1 + w.length ≤ maxLength) := by
    simp
    omega
  show splitLineGo maxLength [] (w :: ws) = _
  conv_lhs => unfold splitLineGo
  rw [if_neg h1]

/-- Claim C5.  Invalid-block skip: a raw block that, after discarding a
purely numeric first line, has fewer than two remaining lines or whose
first remaining line lacks the token `--> ` with surrounding spaces,
yields the empty result with a zero line count, and the file loop passes
over it without emitting anything or consuming an index. -/
theorem invalid_block_skipped (b : Str) (maxLength : ℕ)
    (h : (dropIndex (splitChar '\n' b)).length < 2 ∨
      ∃ t rest, dropIndex (splitChar '\n' b) = t :: rest ∧ hasArrow t = false) :
    process_block b maxLength = some ([], 0) ∧
    ∀ (bs₁ bs₂ : List Str) (n : ℕ),
      mainLoop maxLength (bs₁ ++ b :: bs₂) n = mainLoop maxLength (bs₁ ++ bs₂) n := by
  have hpb : process_block b maxLength = some ([], 0) := by
    unfold process_block
    cases hL : dropIndex (splitChar '\n' b) with
    | nil => rfl
    | cons t rest =>
      cases rest with
      | nil => rfl
      | cons l rs =>
        rw [hL] at h
        rcases h with h | ⟨t', rest', heq, hfa⟩
        · simp at h
          omega
        · obtain ⟨ht', _⟩ := List.cons.injEq .. ▸ heq
          subst ht'
          dsimp only
          rw [hfa]
          rfl
  exact ⟨hpb, mainLoop_skip_invalid maxLength b hpb⟩

/-- Claim C6 (amended).  Provided every raw block of the file is processed
without an exception (the loop completes), the emitted indices are exactly
`1..N` with no gaps, where `N` is the number of emitted sub-blocks, which
equals the sum of the wrapped-line counts of the blocks; invalid blocks
contribute zero and consume no index. -/
theorem index_contiguity (maxLength : ℕ) (blocks : List Str)
    (hok : (mainLoop maxLength blocks 1).2.2 = true) :
    (mainLoop maxLength blocks 1).1.map Prod.fst
      = List.range' 1 (mainLoop maxLength blocks 1).1.length ∧
    (mainLoop maxLength blocks 1).1.length
      = (blocks.map (fun b => wrappedCount b maxLength)).sum := by
  obtain ⟨h1, h2, _⟩ := mainLoop_spec maxLength blocks 1 hok
  exact ⟨h1, h2⟩

/-- Claim C3 (amended).  When no block raises during processing — in
particular structurally invalid blocks are merely skipped — the loop
completes and the output lists every valid block's sub-blocks in order. -/
theorem structural_errors_tolerated (maxLength : ℕ) (blocks : List Str)
    (h : ∀ b ∈ blocks, process_block b maxLength ≠ none) :
    (mainLoop maxLength blocks 1).2.2 = true ∧
    (mainLoop maxLength blocks 1).1.map Prod.snd
      = (blocks.map (fun b => piecesOf b maxLength)).flatten :=
  mainLoop_no_abort maxLength blocks 1 h

section ConcreteEvaluation

attribute [local semireducible] Rat.mul Rat.inv Rat.add Rat.sub Rat.ofScientific

set_option maxRecDepth 200000

/-- Claim C2 (the code divides by zero).  A block whose timecode parses but
whose only text line is a single space wraps to zero lines; `process_block`
then raises `ZeroDivisionError` (embedded: returns `none`) instead of
returning the invalid-block result `('', 0)`. -/
theorem process_block_degenerate_raises :
    parseTimecodePair "00:00:00,000 --> 00:00:01,000".data = some (0, 1000) ∧
    process_block "1\n00:00:00,000 --> 00:00:01,000\n ".data 25 = none ∧
    process_block "1\n00:00:00,000 --> 00:00:01,000\n ".data 25 ≠ some ([], 0) := by
  refine ⟨by decide, by decide, by decide⟩

/-- Claim C9.  Empty input: splitting yields one empty raw block, which is
structurally invalid, so nothing is emitted and the written block content
is empty. -/
theorem empty_input_empty_output (maxLength : ℕ) :
    processFile [] maxLength = ([], 1, true) ∧
    renderOutput (processFile [] maxLength).1 = [] := by
  constructor <;> rfl

/-- Claim C8.  End-to-end example: the block
`1 / 00:00:01,000 --> 00:00:03,000 / The quick brown fox jumps` with
`maxLength = 10` wraps into exactly three lines paired in order with
thirds of the interval, numbered sequentially from the running counter. -/
theorem end_to_end_example (n : ℕ) :
    split_line "The quick brown fox jumps".data 10
        = ["The quick".data, "brown fox".data, "jumps".data] ∧
    mainLoop 10 ["1\n00:00:01,000 --> 00:00:03,000\nThe quick brown fox jumps".data] n
      = ([(n, "00:00:01,000 --> 00:00:01,666\nThe quick".data),
          (n + 1, "00:00:01,666 --> 00:00:02,333\nbrown fox".data),
          (n + 2, "00:00:02,333 --> 00:00:03,000\njumps".data)], n + 3, true) := by
  constructor
  · decide
  · have hpb : process_block
        "1\n00:00:01,000 --> 00:00:03,000\nThe quick brown fox jumps".data 10
        = some (("00:00:01,000 --> 00:00:01,666\nThe quick\n\n"
            ++ "00:00:01,666 --> 00:00:02,333\nbrown fox\n\n"
            ++ "00:00:02,333 --> 00:00:03,000\njumps").data, 3) := by
      decide
    rw [mainLoop_cons_emit 10 _ [] n _ 3 hpb (by decide)]
    have hpieces : pySplit nnSep ("00:00:01,000 --> 00:00:01,666\nThe quick\n\n"
            ++ "00:00:01,666 --> 00:00:02,333\nbrown fox\n\n"
            ++ "00:00:02,333 --> 00:00:03,000\njumps").data
        = ["00:00:01,000 --> 00:00:01,666\nThe quick".data,
           "00:00:01,666 --> 00:00:02,333\nbrown fox".data,
           "00:00:02,333 --> 00:00:03,000\njumps".data] := by
      decide
    rw [hpieces]
    show ((n, _) :: (n + 1, _) :: (n + 1 + 1, _) :: ([] ++ _), _) = _
    rw [show n + 1 + 1 = n + 2 from rfl]
    rfl

/-- Claim C3 counterexample.  A block whose timecode line contains the
separator but whose fields do not parse raises, and the valid block after
it — which emits one sub-block when processed alone — produces nothing. -/
theorem format_error_aborts_rest :
    process_block "2\n00:00:00,000 --> 00:00:02,000\nhi".data 25 ≠ some ([], 0) ∧
    process_block "2\n00:00:00,000 --> 00:00:02,000\nhi".data 25 ≠ none ∧
    (mainLoop 25 ["1\nxx --> yy\nhello".data,
        "2\n00:00:00,000 --> 00:00:02,000\nhi".data] 1).1 = [] ∧
    (mainLoop 25 ["2\n00:00:00,000 --> 00:00:02,000\nhi".data] 1).1.length = 1 := by
  refine ⟨by decide, by decide, by decide, by decide⟩

/-- Claim C6 counterexample.  With a block that raises standing before a
valid block, the file's emitted sub-block count is zero while the sum of
wrapped-line counts of the blocks is one. -/
theorem index_count_counterexample :
    (mainLoop 25 ["1\nxx --> yy\nhello".data,
        "2\n00:00:00,000 --> 00:00:02,000\nhi".data] 1).1.length
      ≠ (["1\nxx --> yy\nhello".data,
          "2\n00:00:00,000 --> 00:00:02,000\nhi".data].map
            (fun b => wrappedCount b 25)).sum := by
  decide

/-- Claim C1 counterexample.  Splitting the 1 ms interval `[0, 1)` into 49
parts (a valid block wrapping into 49 lines): the last emitted
sub-interval's end re-parses to 0, not the original end 1 — in binary64,
`49 * (1/49)` falls just below 1 and the truncating formatter floors it to
0, so the final-endpoint clause of the partition law fails on the code. -/
theorem last_end_rounding_counterexample :
    parseTimecodePair "00:00:00,000 --> 00:00:00,001".data = some (0, 1) ∧
    (split_timecode "00:00:00,000 --> 00:00:00,001".data 49).bind
        (fun subs => subEndMs subs 48) = some 0 ∧
    (split_timecode "00:00:00,000 --> 00:00:00,001".data 49).bind
        (fun subs => subEndMs subs 48) ≠ some 1 := by
  refine ⟨by decide, by decide, by decide⟩

/-- Witness for claim C1 (amended) at the spec's concrete example. -/
theorem split_timecode_partition_witness :
    (1000 ≤ 3000 ∧ 3000 < 2 ^ 53 ∧ 0 < 3 ∧
      parseTimecodePair "00:00:01,000 --> 00:00:03,000".data = some (1000, 3000) ∧
      split_timecode "00:00:01,000 --> 00:00:03,000".data 3
        = some ["00:00:01,000 --> 00:00:01,666".data,
                "00:00:01,666 --> 00:00:02,333".data,
                "00:00:02,333 --> 00:00:03,000".data]) ∧
    (["00:00:01,000 --> 00:00:01,666".data,
      "00:00:01,666 --> 00:00:02,333".data,
      "00:00:02,333 --> 00:00:03,000".data].length = 3 ∧
     subStartMs ["00:00:01,000 --> 00:00:01,666".data,
      "00:00:01,666 --> 00:00:02,333".data,
      "00:00:02,333 --> 00:00:03,000".data] 0 = some 1000 ∧
     ∀ i, i + 1 < 3 →
       subEndMs ["00:00:01,000 --> 00:00:01,666".data,
        "00:00:01,666 --> 00:00:02,333".data,
        "00:00:02,333 --> 00:00:03,000".data] i
         = subStartMs ["00:00:01,000 --> 00:00:01,666".data,
            "00:00:01,666 --> 00:00:02,333".data,
            "00:00:02,333 --> 00:00:03,000".data] (i + 1)) :=
  ⟨⟨by omega, by norm_num, by omega, by decide, by decide⟩,
    split_timecode_partition "00:00:01,000 --> 00:00:03,000".data 3 1000 3000
      ["00:00:01,000 --> 00:00:01,666".data,
       "00:00:01,666 --> 00:00:02,333".data,
       "00:00:02,333 --> 00:00:03,000".data]
      (by omega) (by norm_num) (by omega) (by decide) (by decide)⟩

/-- Witness for claim C5 at a concrete one-line block. -/
theorem invalid_block_skipped_witness :
    ((dropIndex (splitChar '\n' "7\nhello".data)).length < 2 ∨
      ∃ t rest, dropIndex (splitChar '\n' "7\nhello".data) = t :: rest ∧
        hasArrow t = false) ∧
    (process_block "7\nhello".data 25 = some ([], 0) ∧
      ∀ (bs₁ bs₂ : List Str) (n : ℕ),
        mainLoop 25 (bs₁ ++ "7\nhello".data :: bs₂) n = mainLoop 25 (bs₁ ++ bs₂) n) :=
  ⟨Or.inl (by decide), invalid_block_skipped "7\nhello".data 25 (Or.inl (by decide))⟩

/-- Witness for claim C6 (amended) on a file of one valid block wrapping
into three lines. -/
theorem index_contiguity_witness :
    (mainLoop 5 ["1\n00:00:00,000 --> 00:00:03,000\nhi there friend".data] 1).2.2
        = true ∧
    ((mainLoop 5 ["1\n00:00:00,000 --> 00:00:03,000\nhi there friend".data] 1).1.map
        Prod.fst
      = List.range' 1
          (mainLoop 5 ["1\n00:00:00,000 --> 00:00:03,000\nhi there friend".data] 1).1.length ∧
     (mainLoop 5 ["1\n00:00:00,000 --> 00:00:03,000\nhi there friend".data] 1).1.length
      = (["1\n00:00:00,000 --> 00:00:03,000\nhi there friend".data].map
          (fun b => wrappedCount b 5)).sum) :=
  ⟨by decide,
    index_contiguity 5 ["1\n00:00:00,000 --> 00:00:03,000\nhi there friend".data]
      (by decide)⟩

/-- Witness for claim C3 (amended): a structurally invalid block followed
by a valid block; the loop completes and the valid block's piece appears. -/
theorem structural_errors_tolerated_witness :
    (∀ b ∈ ["5\nonly one line".data,
        "2\n00:00:00,000 --> 00:00:02,000\nhi".data], process_block b 25 ≠ none) ∧
    ((mainLoop 25 ["5\nonly one line".data,
        "2\n00:00:00,000 --> 00:00:02,000\nhi".data] 1).2.2 = true ∧
     (mainLoop 25 ["5\nonly one line".data,
        "2\n00:00:00,000 --> 00:00:02,000\nhi".data] 1).1.map Prod.snd
      = (["5\nonly one line".data,
          "2\n00:00:00,000 --> 00:00:02,000\nhi".data].map
            (fun b => piecesOf b 25)).flatten) :=
  ⟨by decide,
    structural_errors_tolerated 25 ["5\nonly one line".data,
      "2\n00:00:00,000 --> 00:00:02,000\nhi".data] (by decide)⟩

/-- Witness for claim C7 at `maxLength = 3`. -/
theorem wrapping_bound_witness :
    (1 ≤ 3 ∧ (∀ u ∈ pySplitWs "ab cd e".data, u.length ≤ 3) ∧
      pySplitWs "abcdef".data = ["abcdef".data] ∧ 3 < "abcdef".data.length) ∧
    ((∀ l ∈ split_line "ab cd e".data 3, l.length ≤ 3) ∧
      "abcdef".data ∈ split_line "abcdef".data 3) :=
  ⟨⟨by omega, by decide, by decide, by decide⟩,
    wrapping_bound 3 "ab cd e".data "abcdef".data "abcdef".data
      (by omega) (by decide) (by decide) (by decide)⟩

/-- Witness for claim C10 at `maxLength = 2` and full word `abc`. -/
theorem leading_empty_line_witness :
    (1 ≤ 2 ∧ pySplitWs "abc".data = "abc".data :: [] ∧ 2 ≤ "abc".data.length) ∧
    (∃ rest, split_line "abc".data 2 = [] :: rest) :=
  ⟨⟨by omega, by decide, by decide⟩,
    leading_empty_line 2 "abc".data "abc".data [] (by omega) (by decide) (by decide)⟩

end ConcreteEvaluation

end Subtitles
